import Mathlib

/-!
Quake WAD reader (`Quake/wad.c`): shallow embedding and verified properties.

Conventions of the embedding.

* A C `int` is a Lean `Int`; every `int` addition and subtraction of the source
  is followed by `wrap32`, the reduction to the 32-bit two's complement range.
  `fh->length` is a `long` and is only ever compared, so it is a plain `Int`.
* A byte (`char`) of a lump name is a `Nat`; a name buffer is a `List Nat`.
  The bytes readable through a `const char *` are the list's elements, and the
  end of the list reads as the terminating zero of a C string.
* A pointer into an array is the index of the element it points at; `NULL` is
  `none`.
* Code paths that call `Sys_Error` or read outside the object they were handed
  are explicit outcomes of type `Res`.
-/

namespace Wad

/-! ## Machine integers -/

/-- Reduction of an integer to the range of a 32-bit signed `int`. -/
def wrap32 (x : Int) : Int := (x + 2147483648) % 4294967296 - 2147483648

/-- The `+` of two C `int`s. -/
def int_add (a b : Int) : Int := wrap32 (a + b)

/-- The `-` of two C `int`s. -/
def int_sub (a b : Int) : Int := wrap32 (a - b)

/-- Modelled from the spec: the `q_max` macro of the missing `q_stdinc.h`, the
`max` of §4.2 (`max(0, size - offset)`). -/
def q_max (a b : Int) : Int := if a > b then a else b

/-- Modelled from the spec: `LittleLong` of the missing `common.c`, the
little-endian decoding primitive that §1 assumes to be a pure function. Header
and directory fields are held as the number that the four on-disk bytes encode,
so that decoding them is the identity. -/
def LittleLong (x : Int) : Int := x

/-! ## Outcomes -/

/-- Outcome of a source function that may not return normally. -/
inductive Res (α : Type) where
  /-- the function returned this value -/
  | ok : α → Res α
  /-- the function called `Sys_Error`, which terminates the process -/
  | fatal : Res α
  /-- the function read memory outside the arrays it was given: what happens
  next is not determined by its arguments -/
  | undef : Res α
  deriving DecidableEq, Repr

/-! ## Data model -/

/-- Modelled from the spec: `lumpinfo_t` of the missing `wad.h`, the directory
record of §6 (`int32 filepos`, `int32 size`, `int32 disksize`, `int8 type`,
`int8 compression`, `char name[16]`; the padding is left out). -/
structure lumpinfo_t where
  filepos : Int
  disksize : Int
  size : Int
  type : Int
  compression : Int
  name : List Nat
  deriving DecidableEq, Repr

/-- Modelled from the spec: `wadinfo_t` of the missing `wad.h`, the header of
§6: four magic characters (each as the `int` it promotes to), `numlumps` and
`infotableofs`. -/
structure wadinfo_t where
  identification : Int × Int × Int × Int
  numlumps : Int
  infotableofs : Int
  deriving DecidableEq, Repr

/-! ## `W_CleanupName` (wad.c 43-61) -/

/-- The body of the first loop at one character: `if (c >= 'A' && c <= 'Z')
c += ('a' - 'A')`. -/
def lowerChar (c : Nat) : Nat := if 65 ≤ c ∧ c ≤ 90 then c + (97 - 65) else c

/-- The two loops of `W_CleanupName` with `k` positions of `out` still to be
written and the input pointer at the head of the list. The first loop copies
lowercased bytes until `k` is used up or a zero (or the end of the input) is
read; on that `break` the second loop fills the remaining `k` positions with
zero. -/
def W_CleanupName_loop : Nat → List Nat → List Nat
  | 0, _ => []
  | k + 1, [] => List.replicate (k + 1) 0
  | k + 1, c :: cs =>
    if c = 0 then List.replicate (k + 1) 0
    else lowerChar c :: W_CleanupName_loop k cs

/-- The function `W_CleanupName (in, out)`: the sixteen bytes left in `out`. -/
def W_CleanupName (inp : List Nat) : List Nat := W_CleanupName_loop 16 inp

/-! ## Per-record pass of `W_AddWadFile` (wad.c 219-248) -/

/-- Body of the directory loop of `W_AddWadFile` for one record `info` of an
archive whose handle has `fh->length = length`. -/
def W_AddWadFile_parse (length : Int) (info : lumpinfo_t) : lumpinfo_t :=
  -- W_CleanupName (info->name, info->name): in place; every index is read
  -- before it is written, so the bytes left are those of the copying run
  let name := W_CleanupName info.name
  let filepos := LittleLong info.filepos
  let size := LittleLong info.size
  let disksize := LittleLong info.disksize
  -- if (filepos + size > length && !(filepos + disksize > length)) size = disksize
  let size :=
    if int_add filepos size > length ∧ ¬ (int_add filepos disksize > length) then disksize
    else size
  -- ensure lump sanity
  if filepos < 0 ∨ size < 0 ∨ int_add filepos size > length then
    if filepos > length ∨ size < 0 then
      -- info->filepos = 0; info->size = q_max (0, info->size - info->filepos)
      let filepos := 0
      { info with name := name, filepos := filepos, size := q_max 0 (int_sub size filepos) }
    else
      { info with name := name, filepos := filepos, size := q_max 0 (int_sub size filepos) }
  else
    { info with name := name, filepos := filepos, size := size }

/-! ## Lookup inside one directory: `W_GetLumpinfo` (wad.c 114-130) -/

/-- The library call `strcmp (a, b)` on two character arrays, the pointers being at the heads of
the lists: `some d` with `d` the difference of the first differing bytes (zero
when both strings end together), `none` when the scan reaches the end of either
array without having met a difference or a terminating zero, that is, when
`strcmp` reads past the array. -/
def strcmp : List Nat → List Nat → Option Int
  | [], _ => none
  | _ :: _, [] => none
  | a :: as, b :: bs =>
    if a ≠ b then some ((a : Int) - (b : Int))
    else if a = 0 then some 0
    else strcmp as bs

/-- The scan `for (lump_p=lumps, i=0 ; i<numlumps ; i++,lump_p++)` of
`W_GetLumpinfo`, with `k` iterations left and `lump_p = lumps + i`. The result
is the index of the record returned, or `none` for the `NULL` returned after the
loop. -/
def W_GetLumpinfo_loop (clean : List Nat) (lumps : List lumpinfo_t) :
    Nat → Nat → Res (Option Nat)
  | 0, _ => Res.ok none
  | k + 1, i =>
    match lumps[i]? with
    | none => Res.undef
    | some lump_p =>
      match strcmp clean lump_p.name with
      | none => Res.undef
      | some d => if d = 0 then Res.ok (some i) else W_GetLumpinfo_loop clean lumps k (i + 1)

/-- The function `W_GetLumpinfo (lumps, numlumps, name)`. -/
def W_GetLumpinfo (lumps : List lumpinfo_t) (numlumps : Int) (name : List Nat) :
    Res (Option Nat) :=
  W_GetLumpinfo_loop (W_CleanupName name) lumps numlumps.toNat 0

/-! ## The singleton blob: `W_GetLumpName`, `W_GetLumpNum` (wad.c 132-153) -/

/-- The globals `wad_numlumps`, `wad_lumps` and `wad_base` after `W_LoadWadFile`:
`wad_base` is the address of the buffer and `wad_lumps` lists the directory
records that lie inside it from `wad_base + infotableofs` on. -/
structure Blob where
  wad_numlumps : Int
  wad_lumps : List lumpinfo_t
  wad_base : Int
  deriving DecidableEq, Repr

/-- The function `W_GetLumpNum (num)`: the address `wad_base + lump->filepos`. -/
def W_GetLumpNum (g : Blob) (num : Int) : Res Int :=
  if num < 0 ∨ num > g.wad_numlumps then Res.fatal
  else
    match g.wad_lumps[num.toNat]? with
    | none => Res.undef
    | some lump => Res.ok (g.wad_base + lump.filepos)

/-! ## Archives of a chain: `W_OpenWadFile`, `W_AddWadFile` (wad.c 160-259) -/

/-- What the file layer (`FS_fread`, `FS_fseek`, out of scope in §1) delivers
for one open stream: the header read at the start, and for every offset `ofs`
and index `k` the record that ends up in `lumps[k]` after seeking to `ofs` and
reading the directory. -/
structure Stream where
  header : wadinfo_t
  directory : Int → Nat → lumpinfo_t

/-- Modelled from the spec: `fshandle_t` of the missing `filesys.h`, "open file
handle + offset/length" of §3, reduced to the stream and its `length`. -/
structure fshandle_t where
  file : Stream
  length : Int

/-- Modelled from the spec: `wad_t` of the missing `wad.h`, the ArchiveTable of
§3. The `next` pointer is the tail of the list that holds the archive. -/
structure wad_t where
  name : List Char
  id : Int
  fh : fshandle_t
  numlumps : Int
  lumps : List lumpinfo_t

/-- The collaborators and constants that `wad.c` takes from other files. -/
structure Env where
  /-- the magic `WADID` of `wad.h` -/
  WADID : Int
  /-- the magic `WADID_VALVE` of `wad.h` -/
  WADID_VALVE : Int
  /-- the buffer size `MAX_QPATH` -/
  MAX_QPATH : Nat
  /-- The call `COM_FileBase (in, out, outsize)`: the string left in `out` -/
  COM_FileBase : List Char → Nat → List Char
  /-- The call `COM_AddExtension (path, extension, len)`: the string left in `path` -/
  COM_AddExtension : List Char → List Char → Nat → List Char
  /-- The call `COM_FOpenFile (filename, &f, NULL)`: the returned length (`-1` when the
  file cannot be opened) and the stream left in `f` -/
  COM_FOpenFile : List Char → Int × Stream

/-- The function `W_OpenWadFile (filename, fh)`: `none` for `false`, else the handle. -/
def W_OpenWadFile (env : Env) (filename : List Char) : Option fshandle_t :=
  let r := env.COM_FOpenFile filename
  if r.1 = -1 then none
  else some { file := r.2, length := r.1 }

/-- The magic as `W_AddWadFile` assembles it: `id[0] | (id[1] << 8) |
(id[2] << 16) | (id[3] << 24)`, then `LittleLong`. -/
def W_AddWadFile_id (header : wadinfo_t) : Int :=
  let c := header.identification
  LittleLong (Int.lor (Int.lor (Int.lor c.1 (wrap32 (c.2.1 * 256)))
    (wrap32 (c.2.2.1 * 65536))) (wrap32 (c.2.2.2 * 16777216)))

/-- The function `W_AddWadFile (name, fh)`: `none` for `NULL`. None of its paths calls
`Sys_Error`; the rejections only print (`Con_Warning`, `Con_DPrintf2`). -/
def W_AddWadFile (env : Env) (name : List Char) (fh : fshandle_t) : Option wad_t :=
  let header := fh.file.header
  let id := W_AddWadFile_id header
  if id ≠ env.WADID ∧ id ≠ env.WADID_VALVE then none
  else
    let numlumps := LittleLong header.numlumps
    let infotableofs := LittleLong header.infotableofs
    if numlumps < 0 ∨ infotableofs < 0 then none
    else if numlumps = 0 then none
    else
      let lumps := (List.range numlumps.toNat).map (fh.file.directory infotableofs)
      some { name := name.take (env.MAX_QPATH - 1)
             id := id
             fh := fh
             numlumps := numlumps
             lumps := lumps.map (W_AddWadFile_parse fh.length) }

/-! ## The chain: `W_LoadWadList`, `W_GetLumpinfoList` (wad.c 266-356) -/

/-- The statements `e = strchr (name, ';'); if (e) *e++ = 0;` on a non-empty rest of the list:
the member now at `name` and the new `e` (`none` for `NULL`). -/
def W_LoadWadList_cut : List Char → List Char × Option (List Char)
  | [] => ([], none)
  | c :: cs =>
    if c = ';' then ([], some cs)
    else ((c :: (W_LoadWadList_cut cs).1), (W_LoadWadList_cut cs).2)

/-- One pass of the loop body of `W_LoadWadList` for the member `name`:
the archive to put in front of the chain, if any. -/
def W_LoadWadList_member (env : Env) (name : List Char) : Option wad_t :=
  let filename := env.COM_AddExtension (env.COM_FileBase name env.MAX_QPATH)
    ['.', 'w', 'a', 'd'] env.MAX_QPATH
  match W_OpenWadFile env filename with
  | some fh => W_AddWadFile env filename fh
  | none =>
    -- try the "gfx" directory
    let filename := (['g', 'f', 'x', '/'] ++ filename).take (env.MAX_QPATH - 1)
    match W_OpenWadFile env filename with
    | none => none
    | some fh => W_AddWadFile env filename fh

/-- The loop `for (name = newnames; name && *name;)` of `W_LoadWadList`, run for
at most `fuel` iterations. -/
def W_LoadWadList_loop (env : Env) : Nat → Option (List Char) → List wad_t → List wad_t
  | 0, _, wads => wads
  | _ + 1, none, wads => wads
  | _ + 1, some [], wads => wads
  | fuel + 1, some (c :: cs), wads =>
    let e := (W_LoadWadList_cut (c :: cs)).2
    match W_LoadWadList_member env (W_LoadWadList_cut (c :: cs)).1 with
    | some wad => W_LoadWadList_loop env fuel e (wad :: wads)
    | none => W_LoadWadList_loop env fuel e wads

/-- The function `W_LoadWadList (names)`: the chain, head first. Every iteration consumes at
least one character of `names`, so `names.length` iterations suffice. -/
def W_LoadWadList (env : Env) (names : List Char) : List wad_t :=
  W_LoadWadList_loop env names.length (some names) []

/-- The function `W_GetLumpinfoList (wads, name, out_wad)` with the `k`-th archive of the
chain at `wads`: `none` for `NULL`, else the position in the chain of the
archive stored in `*out_wad` and the index of the returned record in its
directory. -/
def W_GetLumpinfoList_from (name : List Nat) : Nat → List wad_t → Res (Option (Nat × Nat))
  | _, [] => Res.ok none
  | k, wads :: next =>
    match W_GetLumpinfo wads.lumps wads.numlumps name with
    | Res.ok (some info) => Res.ok (some (k, info))
    | Res.ok none => W_GetLumpinfoList_from name (k + 1) next
    | Res.fatal => Res.fatal
    | Res.undef => Res.undef

/-- The function `W_GetLumpinfoList (wads, name, out_wad)` from the head of the chain. -/
def W_GetLumpinfoList (wads : List wad_t) (name : List Nat) : Res (Option (Nat × Nat)) :=
  W_GetLumpinfoList_from name 0 wads

/-! ## `W_CleanupName` on one memory (wad.c 43-61, 102, 221) -/

/-- The second loop of `W_CleanupName`, `for ( ; i< 16 ; i++ ) out[i] = 0`, on
the memory `mem` with `out` the offset of the output buffer, `k` iterations
left and the counter at `i`. -/
def W_CleanupName_fill (out : Nat) : Nat → Nat → List Nat → List Nat
  | 0, _, mem => mem
  | k + 1, i, mem => W_CleanupName_fill out k (i + 1) (mem.set (out + i) 0)

/-- The first loop of `W_CleanupName` on the memory `mem`, with `inp` and `out`
the offsets of the two buffers (equal when the call is made in place), `k`
iterations left and the counter at `i`: `c = in[i]` is read from the memory as
the earlier writes left it, and on the `break` the second loop takes over. -/
def W_CleanupName_run (inp out : Nat) : Nat → Nat → List Nat → List Nat
  | 0, _, mem => mem
  | k + 1, i, mem =>
    if mem.getD (inp + i) 0 = 0 then W_CleanupName_fill out (k + 1) i mem
    else
      W_CleanupName_run inp out k (i + 1)
        (mem.set (out + i) (lowerChar (mem.getD (inp + i) 0)))

/-- The memory after `W_CleanupName (mem + inp, mem + out)`. -/
def W_CleanupName_mem (mem : List Nat) (inp out : Nat) : List Nat :=
  W_CleanupName_run inp out 16 0 mem

/-! ## Loading the singleton blob: `W_LoadWadFile`, `W_GetLumpName` (wad.c 68-141) -/

/-- What `COM_LoadMallocFile` delivers when it does not return `NULL`: the
address and the length of the buffer, the header that its first bytes hold, and
for every offset the directory records that lie inside the buffer from that
offset on. -/
structure Loaded where
  wad_base : Int
  length : Int
  header : wadinfo_t
  directory : Int → List lumpinfo_t

/-- The directory loop of `W_LoadWadFile` with `k` iterations left and
`lump_p = wad_lumps + i`; `TYP_QPIC` is the constant of the missing `wad.h`.
A record outside the buffer, or a picture header (two `int`s at
`wad_base + filepos`) outside the buffer, is a read outside the buffer;
`SwapPic` itself decodes with `LittleLong` and changes nothing here. -/
def W_LoadWadFile_loop (TYP_QPIC length : Int) :
    Nat → Nat → List lumpinfo_t → Res (List lumpinfo_t)
  | 0, _, wad_lumps => Res.ok wad_lumps
  | k + 1, i, wad_lumps =>
    match wad_lumps[i]? with
    | none => Res.undef
    | some lump_p =>
      let filepos := LittleLong lump_p.filepos
      let size := LittleLong lump_p.size
      -- W_CleanupName (lump_p->name, lump_p->name): CAUTION: in-place editing!!!
      let name := (W_CleanupName_mem lump_p.name 0 0)
      if lump_p.type = TYP_QPIC ∧ ¬ (0 ≤ filepos ∧ filepos + 8 ≤ length) then Res.undef
      else
        W_LoadWadFile_loop TYP_QPIC length k (i + 1)
          (wad_lumps.set i { lump_p with filepos := filepos, size := size, name := name })

/-- The function `W_LoadWadFile ()`, given what `COM_LoadMallocFile` returns
(`none` for `NULL`): the globals it leaves, or `Res.fatal` for `Sys_Error`. -/
def W_LoadWadFile (TYP_QPIC : Int) (file : Option Loaded) : Res Blob :=
  match file with
  | none => Res.fatal
  | some f =>
    if f.header.identification.1 ≠ 87 ∨ f.header.identification.2.1 ≠ 65
        ∨ f.header.identification.2.2.1 ≠ 68 ∨ f.header.identification.2.2.2 ≠ 50 then
      Res.fatal
    else
      let wad_numlumps := LittleLong f.header.numlumps
      let infotableofs := LittleLong f.header.infotableofs
      match W_LoadWadFile_loop TYP_QPIC f.length wad_numlumps.toNat 0
          (f.directory infotableofs) with
      | Res.ok wad_lumps =>
        Res.ok { wad_numlumps := wad_numlumps, wad_lumps := wad_lumps, wad_base := f.wad_base }
      | Res.fatal => Res.fatal
      | Res.undef => Res.undef

/-- The function `W_GetLumpName (name)`: `none` for `NULL`, else the address
`wad_base + lump->filepos`. -/
def W_GetLumpName (g : Blob) (name : List Nat) : Res (Option Int) :=
  match W_GetLumpinfo g.wad_lumps g.wad_numlumps name with
  | Res.ok none => Res.ok none
  | Res.ok (some lump) =>
    match g.wad_lumps[lump]? with
    | none => Res.undef
    | some l => Res.ok (some (g.wad_base + l.filepos))
  | Res.fatal => Res.fatal
  | Res.undef => Res.undef

/-! ## Specification-side vocabulary -/

/-- Position of the first zero byte of the input, or the length of the input
when it holds no zero byte. -/
def firstZero : List Nat → Nat
  | [] => 0
  | c :: cs => if c = 0 then 0 else firstZero cs + 1

/-- The members of an identifier list in listed order: the pieces between the
`;` separators; an empty piece after the last separator is no member. -/
def wadListMembers : List Char → List (List Char)
  | [] => []
  | c :: cs =>
    if c = ';' then [] :: wadListMembers cs
    else
      match wadListMembers cs with
      | [] => [[c]]
      | m :: ms => (c :: m) :: ms

/-- The identifier list that lists the given members, each followed by `;`. -/
def joinMembers : List (List Char) → List Char
  | [] => []
  | m :: ms => m ++ ';' :: joinMembers ms

/-- Header validation in the words of §4.2: the decoded magic is one of the two
recognized values, neither count is negative, and the lump count is not zero. -/
def headerValid (env : Env) (header : wadinfo_t) : Bool :=
  decide ((W_AddWadFile_id header = env.WADID ∨ W_AddWadFile_id header = env.WADID_VALVE)
    ∧ ¬ (LittleLong header.numlumps < 0) ∧ ¬ (LittleLong header.infotableofs < 0)
    ∧ LittleLong header.numlumps ≠ 0)

/-- A member of an identifier list is kept, in the words of §4.4: its derived
filename opens, directly or under the fallback directory `gfx/`, and the header
of the opened stream passes validation. -/
def memberValid (env : Env) (m : List Char) : Bool :=
  match W_OpenWadFile env
      (env.COM_AddExtension (env.COM_FileBase m env.MAX_QPATH) ['.', 'w', 'a', 'd']
        env.MAX_QPATH) with
  | some fh => headerValid env fh.file.header
  | none =>
    match W_OpenWadFile env ((['g', 'f', 'x', '/'] ++
        env.COM_AddExtension (env.COM_FileBase m env.MAX_QPATH) ['.', 'w', 'a', 'd']
          env.MAX_QPATH).take (env.MAX_QPATH - 1)) with
    | some fh => headerValid env fh.file.header
    | none => false

/-- First record, in directory order, whose name is byte for byte `key`, as an
index counted from `i`. -/
def firstMatch (key : List Nat) : List lumpinfo_t → Nat → Option Nat
  | [], _ => none
  | l :: ls, i => if l.name = key then some i else firstMatch key ls (i + 1)

/-- What `W_AddWadFile` establishes for the table it returns: the directory
holds `numlumps` records and every name is a key of `W_CleanupName`. -/
def wadLoaded (w : wad_t) : Prop :=
  w.numlumps.toNat = w.lumps.length ∧ ∀ l ∈ w.lumps, W_CleanupName l.name = l.name

/-! ## Example data -/

/-- A directory record with the given name and bounds. -/
def exampleNamed (name : List Nat) (filepos size : Int) : lumpinfo_t :=
  { filepos := filepos, disksize := size, size := size, type := 0, compression := 0,
    name := name }

/-- A stream with the given magic characters and lump count, whose directory
(at offset 12) holds records named `X` of the given size. -/
def exampleStream (magic : Int × Int × Int × Int) (numlumps size : Int) : Stream :=
  { header := { identification := magic, numlumps := numlumps, infotableofs := 12 }
    directory := fun _ _ => exampleNamed [88] 12 size }

/-- An environment with four files: `a.wad` and `gfx/b.wad` are `WAD2` archives
that both hold a lump `X` (of size 4 in `a`, of size 8 in `b`), `bad.wad` has
the magic `BAD!`, and `empty.wad` is a `WAD2` archive of zero lumps. -/
def exampleEnv : Env :=
  { WADID := 843333975
    WADID_VALVE := 860111191
    MAX_QPATH := 64
    COM_FileBase := fun name _ => name
    COM_AddExtension := fun path ext _ => path ++ ext
    COM_FOpenFile := fun filename =>
      if filename = ['a', '.', 'w', 'a', 'd'] then (100, exampleStream (87, 65, 68, 50) 1 4)
      else if filename = ['g', 'f', 'x', '/', 'b', '.', 'w', 'a', 'd'] then
        (100, exampleStream (87, 65, 68, 50) 1 8)
      else if filename = ['b', 'a', 'd', '.', 'w', 'a', 'd'] then
        (100, exampleStream (66, 65, 68, 33) 1 4)
      else if filename = ['e', 'm', 'p', 't', 'y', '.', 'w', 'a', 'd'] then
        (12, exampleStream (87, 65, 68, 50) 0 4)
      else (-1, exampleStream (0, 0, 0, 0) 0 0) }

/-- The identifier list `a;bad;empty;b`. -/
def exampleNames : List Char :=
  ['a', ';', 'b', 'a', 'd', ';', 'e', 'm', 'p', 't', 'y', ';', 'b']

/-- A `WAD2`-style stream with the given magic characters whose directory (at
offset 12) holds one record, named sixteen times `A`, of the given size. -/
def exampleStream16 (magic : Int × Int × Int × Int) (size : Int) : Stream :=
  { header := { identification := magic, numlumps := 1, infotableofs := 12 }
    directory := fun _ _ => exampleNamed (List.replicate 16 65) 12 size }

/-- An environment with three files: `a.wad` and `b.wad` are `WAD2` archives
that both hold a lump named sixteen times `A` (of size 4 in `a`, of size 8 in
`b`), and `bad.wad` has the magic `BAD!`. -/
def exampleEnv16 : Env :=
  { WADID := 843333975
    WADID_VALVE := 860111191
    MAX_QPATH := 64
    COM_FileBase := fun name _ => name
    COM_AddExtension := fun path ext _ => path ++ ext
    COM_FOpenFile := fun filename =>
      if filename = ['a', '.', 'w', 'a', 'd'] then (100, exampleStream16 (87, 65, 68, 50) 4)
      else if filename = ['b', '.', 'w', 'a', 'd'] then
        (100, exampleStream16 (87, 65, 68, 50) 8)
      else if filename = ['b', 'a', 'd', '.', 'w', 'a', 'd'] then
        (100, exampleStream16 (66, 65, 68, 33) 4)
      else (-1, exampleStream (0, 0, 0, 0) 0 0) }

/-- A directory record with the given bounds fields and an empty name. -/
def exampleLump (filepos size disksize : Int) : lumpinfo_t :=
  { filepos := filepos, disksize := disksize, size := size, type := 0, compression := 0,
    name := [] }

/-- The blob of the examples: two directory records, buffer at address 1000. -/
def exampleBlob : Blob :=
  { wad_numlumps := 2, wad_lumps := [exampleLump 12 4 4, exampleLump 16 8 8], wad_base := 1000 }

/-- The sixteen name bytes of `CONCHARS`, zero-padded. -/
def exampleConchars : List Nat :=
  [67, 79, 78, 67, 72, 65, 82, 83] ++ List.replicate 8 0

/-- A loaded file of 100 bytes at address 1000 with the given magic characters:
its directory, at offset 12, holds the picture `CONCHARS` (type 66) at offset 76
and a lump whose name is sixteen times `A` at offset 84. -/
def exampleFile (magic : Int × Int × Int × Int) : Loaded :=
  { wad_base := 1000
    length := 100
    header := { identification := magic, numlumps := 2, infotableofs := 12 }
    directory := fun ofs =>
      if ofs = 12 then
        [{ filepos := 76, disksize := 8, size := 8, type := 66, compression := 0,
           name := exampleConchars },
         { filepos := 84, disksize := 16, size := 16, type := 0, compression := 0,
           name := List.replicate 16 65 }]
      else [] }

/-- The globals that `W_LoadWadFile` leaves for `exampleFile` with the magic
`WAD2`. -/
def exampleLoaded : Blob :=
  { wad_numlumps := 2
    wad_lumps :=
      [{ filepos := 76, disksize := 8, size := 8, type := 66, compression := 0,
         name := [99, 111, 110, 99, 104, 97, 114, 115] ++ List.replicate 8 0 },
       { filepos := 84, disksize := 16, size := 16, type := 0, compression := 0,
         name := List.replicate 16 97 }]
    wad_base := 1000 }

/-! ## Lemmas on `W_CleanupName` -/

theorem lowerChar_ne_zero {c : Nat} (h : c ≠ 0) : lowerChar c ≠ 0 := by
  unfold lowerChar
  split <;> omega

theorem lowerChar_lowerChar (c : Nat) : lowerChar (lowerChar c) = lowerChar c := by
  unfold lowerChar
  split_ifs <;> omega

theorem lowerChar_not_upper (c : Nat) : ¬ (65 ≤ lowerChar c ∧ lowerChar c ≤ 90) := by
  unfold lowerChar
  split_ifs <;> omega

theorem W_CleanupName_loop_length (k : Nat) (inp : List Nat) :
    (W_CleanupName_loop k inp).length = k := by
  induction k generalizing inp with
  | zero => simp [W_CleanupName_loop]
  | succ k ih =>
    cases inp with
    | nil => simp [W_CleanupName_loop]
    | cons c cs =>
      by_cases hc : c = 0
      · simp [W_CleanupName_loop, hc]
      · simp [W_CleanupName_loop, hc, ih]

theorem W_CleanupName_loop_zeros (k : Nat) (rest : List Nat) :
    W_CleanupName_loop k (List.replicate k 0 ++ rest) = List.replicate k 0 := by
  cases k with
  | zero => simp [W_CleanupName_loop]
  | succ k => simp [W_CleanupName_loop, List.replicate_succ]

theorem W_CleanupName_loop_idem (k : Nat) (inp : List Nat) :
    W_CleanupName_loop k (W_CleanupName_loop k inp) = W_CleanupName_loop k inp := by
  induction k generalizing inp with
  | zero => simp [W_CleanupName_loop]
  | succ k ih =>
    have hz : W_CleanupName_loop (k + 1) (List.replicate (k + 1) 0)
        = List.replicate (k + 1) 0 := by
      simpa using W_CleanupName_loop_zeros (k + 1) []
    cases inp with
    | nil => simp [W_CleanupName_loop]
    | cons c cs =>
      by_cases hc : c = 0
      · simp [W_CleanupName_loop, hc]
      · simp [W_CleanupName_loop, hc, lowerChar_ne_zero hc, lowerChar_lowerChar, ih]

theorem W_CleanupName_loop_not_upper (k : Nat) (inp : List Nat) :
    ∀ b ∈ W_CleanupName_loop k inp, ¬ (65 ≤ b ∧ b ≤ 90) := by
  induction k generalizing inp with
  | zero => simp [W_CleanupName_loop]
  | succ k ih =>
    have hz : ∀ b ∈ List.replicate (k + 1) 0, ¬ (65 ≤ b ∧ b ≤ 90) := by
      intro b hb
      rw [List.eq_of_mem_replicate hb]
      omega
    cases inp with
    | nil => simp [W_CleanupName_loop]
    | cons c cs =>
      by_cases hc : c = 0
      · simp [W_CleanupName_loop, hc]
      · intro b hb
        simp only [W_CleanupName_loop, hc, if_false, List.mem_cons] at hb
        rcases hb with rfl | hb
        · exact lowerChar_not_upper c
        · exact ih cs b hb

theorem W_CleanupName_loop_take (k : Nat) (inp : List Nat) :
    W_CleanupName_loop k (inp.take k) = W_CleanupName_loop k inp := by
  induction k generalizing inp with
  | zero => simp [W_CleanupName_loop]
  | succ k ih =>
    cases inp with
    | nil => simp [W_CleanupName_loop]
    | cons c cs =>
      by_cases hc : c = 0
      · simp [W_CleanupName_loop, hc]
      · simp [W_CleanupName_loop, hc, ih]

theorem W_CleanupName_loop_closed (k : Nat) (inp : List Nat) :
    W_CleanupName_loop k inp
      = (List.range k).map (fun i =>
          if i < firstZero inp then
            (if 65 ≤ inp.getD i 0 ∧ inp.getD i 0 ≤ 90 then inp.getD i 0 + 32 else inp.getD i 0)
          else 0) := by
  induction k generalizing inp with
  | zero => simp [W_CleanupName_loop]
  | succ k ih =>
    have hz : List.replicate (k + 1) 0 = (List.range (k + 1)).map (fun _ => 0) := by
      apply List.ext_getElem
      · simp
      · intro i h1 h2
        simp
    cases inp with
    | nil => simp [W_CleanupName_loop, firstZero]
    | cons c cs =>
      by_cases hc : c = 0
      · simp [W_CleanupName_loop, firstZero, hc]
      · rw [List.range_succ_eq_map]
        simp only [W_CleanupName_loop, hc, if_false, List.map_cons, List.map_map, firstZero]
        rw [ih cs]
        congr 1
        · simp [lowerChar]
        · apply List.map_congr_left
          intro i _
          simp

/-! ## Claims on `W_CleanupName` -/

/-- C7: `W_CleanupName` is idempotent: applied to the sixteen-byte key it
produced, it yields exactly the same sixteen bytes. -/
theorem W_CleanupName_idempotent (inp : List Nat) :
    W_CleanupName (W_CleanupName inp) = W_CleanupName inp :=
  W_CleanupName_loop_idem 16 inp

/-- C8: the key of `W_CleanupName` holds, at each of its sixteen positions `i`,
the input byte at `i` with `'A'..'Z'` (65..90) moved to `'a'..'z'` and every
other byte unchanged when `i` lies before the first zero byte (or the end) of
the input, and zero from there on; and the key is that of the first sixteen
input bytes. -/
theorem W_CleanupName_bytes (inp : List Nat) :
    W_CleanupName inp
        = (List.range 16).map (fun i =>
            if i < firstZero inp then
              (if 65 ≤ inp.getD i 0 ∧ inp.getD i 0 ≤ 90 then inp.getD i 0 + 32
               else inp.getD i 0)
            else 0)
      ∧ W_CleanupName inp = W_CleanupName (inp.take 16) :=
  ⟨W_CleanupName_loop_closed 16 inp, (W_CleanupName_loop_take 16 inp).symm⟩

/-- C9: the output of `W_CleanupName` has length exactly 16 and holds no
uppercase ASCII letter (no byte in 65..90). -/
theorem W_CleanupName_length_no_upper (inp : List Nat) :
    (W_CleanupName inp).length = 16
      ∧ ∀ b ∈ W_CleanupName inp, ¬ (65 ≤ b ∧ b ≤ 90) :=
  ⟨W_CleanupName_loop_length 16 inp, W_CleanupName_loop_not_upper 16 inp⟩

/-! ## Claims on the sanitization pass of `W_AddWadFile` -/

/-- C1: at archive length 10 the record `filepos = 3, size = 100` leaves the
pass with `filepos = 3, size = 97`, which ends 90 bytes past the archive; the
record `filepos = 20, size = 50` leaves it as `filepos = 0, size = 50`; the
record `filepos = -1, size = 0` keeps its negative `filepos`; and the table that
`W_AddWadFile` returns for a `WAD2` stream of length 10 whose one record is
`filepos = 12, size = 100` retains it as `filepos = 0, size = 100`. -/
theorem W_AddWadFile_parse_out_of_bounds :
    (W_AddWadFile_parse 10 (exampleLump 3 100 100)).filepos = 3
      ∧ (W_AddWadFile_parse 10 (exampleLump 3 100 100)).size = 97
      ∧ ¬ ((W_AddWadFile_parse 10 (exampleLump 3 100 100)).filepos
            + (W_AddWadFile_parse 10 (exampleLump 3 100 100)).size ≤ 10)
      ∧ ¬ ((W_AddWadFile_parse 10 (exampleLump 20 50 50)).filepos
            + (W_AddWadFile_parse 10 (exampleLump 20 50 50)).size ≤ 10)
      ∧ ¬ (0 ≤ (W_AddWadFile_parse 10 (exampleLump (-1) 0 0)).filepos)
      ∧ (W_AddWadFile exampleEnv []
            { file := exampleStream (87, 65, 68, 50) 1 100, length := 10 }).map
          (fun w => w.lumps.map (fun l => (l.filepos, l.size))) = some [(0, 100)] := by
  decide

/-- C3 fails as stated: at archive length 10 the record `filepos = 5,
size = 100, disksize = -3` has `filepos + size` beyond the archive and
`filepos + disksize` inside it, and leaves the pass with size 0, not -3. -/
theorem W_AddWadFile_parse_negative_disksize :
    (exampleLump 5 100 (-3)).filepos + (exampleLump 5 100 (-3)).size > 10
      ∧ (exampleLump 5 100 (-3)).filepos + (exampleLump 5 100 (-3)).disksize ≤ 10
      ∧ (W_AddWadFile_parse 10 (exampleLump 5 100 (-3))).size = 0
      ∧ (W_AddWadFile_parse 10 (exampleLump 5 100 (-3))).size
          ≠ (exampleLump 5 100 (-3)).disksize := by
  decide

/-- C3, amended: for a record with `0 ≤ filepos` and `0 ≤ disksize` whose
`filepos + size` (as the code adds two `int`s) exceeds the archive length while
its `filepos + disksize` does not, the size after the pass is the original
`disksize`. -/
theorem W_AddWadFile_parse_size_eq_disksize (length : Int) (info : lumpinfo_t)
    (hpos : 0 ≤ info.filepos) (hdisk : 0 ≤ info.disksize)
    (hsize : int_add info.filepos info.size > length)
    (hfit : ¬ (int_add info.filepos info.disksize > length)) :
    (W_AddWadFile_parse length info).size = info.disksize := by
  have h1 : ¬ (info.filepos < 0) := by omega
  have h2 : ¬ (info.disksize < 0) := by omega
  simp [W_AddWadFile_parse, LittleLong, hsize, hfit, h1, h2]

/-- Witness of C3 amended: archive length 10, `filepos = 5`, `size = 100`,
`disksize = 3`. -/
theorem W_AddWadFile_parse_size_eq_disksize_witness :
    (W_AddWadFile_parse 10 (exampleLump 5 100 3)).size = 3 :=
  W_AddWadFile_parse_size_eq_disksize 10 (exampleLump 5 100 3)
    (by decide) (by decide) (by decide) (by decide)

/-! ## Claims on `W_GetLumpNum` -/

/-- Inside `[0, wad_numlumps)` of a blob whose directory holds `wad_numlumps`
records, `W_GetLumpNum` returns `wad_base + filepos` of the record asked for. -/
theorem W_GetLumpNum_in_range (g : Blob) (num : Int) (lump : lumpinfo_t)
    (h0 : 0 ≤ num) (h1 : num < g.wad_numlumps)
    (hl : g.wad_lumps[num.toNat]? = some lump) :
    W_GetLumpNum g num = Res.ok (g.wad_base + lump.filepos) := by
  have h : ¬ (num < 0 ∨ num > g.wad_numlumps) := by omega
  simp [W_GetLumpNum, h, hl]

/-- Below zero and above `wad_numlumps`, `W_GetLumpNum` is fatal. -/
theorem W_GetLumpNum_fatal (g : Blob) (num : Int)
    (h : num < 0 ∨ g.wad_numlumps < num) : W_GetLumpNum g num = Res.fatal := by
  have h1 : num < 0 ∨ num > g.wad_numlumps := by omega
  simp [W_GetLumpNum, h1]

/-- C4: with `wad_numlumps = 2`, the index 2 lies outside `[0, 2)`, yet
`W_GetLumpNum (2)` is not fatal: the guard `num > wad_numlumps` lets it pass
and the function reads the record after the last one of the directory. The
indices -1 and 3 are fatal, the indices 0 and 1 return `wad_base + filepos`. -/
theorem W_GetLumpNum_at_numlumps :
    W_GetLumpNum exampleBlob 2 ≠ Res.fatal
      ∧ W_GetLumpNum exampleBlob 2 = Res.undef
      ∧ W_GetLumpNum exampleBlob (-1) = Res.fatal
      ∧ W_GetLumpNum exampleBlob 3 = Res.fatal
      ∧ W_GetLumpNum exampleBlob 0 = Res.ok 1012
      ∧ W_GetLumpNum exampleBlob 1 = Res.ok 1016 := by
  decide

/-! ## Claims on the header checks of `W_AddWadFile` -/

/-- C5: `W_AddWadFile` returns a table if and only if the decoded magic is
`WADID` or `WADID_VALVE`, the decoded `numlumps` is positive and the decoded
`infotableofs` is not negative; for a bad magic, a negative `numlumps`, a
negative `infotableofs` or a zero `numlumps` it returns `NULL` (the function has
no fatal path). -/
theorem W_AddWadFile_isSome_iff (env : Env) (name : List Char) (fh : fshandle_t) :
    ((W_AddWadFile env name fh).isSome = true ↔
        (W_AddWadFile_id fh.file.header = env.WADID
            ∨ W_AddWadFile_id fh.file.header = env.WADID_VALVE)
          ∧ LittleLong fh.file.header.numlumps > 0
          ∧ LittleLong fh.file.header.infotableofs ≥ 0)
      ∧ (((W_AddWadFile_id fh.file.header ≠ env.WADID
              ∧ W_AddWadFile_id fh.file.header ≠ env.WADID_VALVE)
            ∨ LittleLong fh.file.header.numlumps < 0
            ∨ LittleLong fh.file.header.infotableofs < 0
            ∨ LittleLong fh.file.header.numlumps = 0) →
          W_AddWadFile env name fh = none) := by
  unfold W_AddWadFile
  simp only []
  split_ifs with ha hb hc
  · refine ⟨⟨fun h => absurd h (by simp), ?_⟩, fun _ => rfl⟩
    rintro ⟨h | h, -⟩
    · exact absurd h ha.1
    · exact absurd h ha.2
  · refine ⟨⟨fun h => absurd h (by simp), ?_⟩, fun _ => rfl⟩
    rintro ⟨-, h1, h2⟩
    omega
  · refine ⟨⟨fun h => absurd h (by simp), ?_⟩, fun _ => rfl⟩
    rintro ⟨-, h1, -⟩
    omega
  · constructor
    · simp only [Option.isSome_some, true_iff]
      refine ⟨?_, by omega, by omega⟩
      by_contra hne
      push_neg at hne
      exact ha hne
    · rintro (h | h | h | h)
      · exact absurd h ha
      · exact absurd (Or.inl h) hb
      · exact absurd (Or.inr h) hb
      · exact absurd h hc

/-! ## Lemmas on `strcmp` and `W_GetLumpinfo` -/

theorem W_CleanupName_loop_succ_cases (k : Nat) (x : List Nat) :
    W_CleanupName_loop (k + 1) x = 0 :: List.replicate k 0
      ∨ ∃ c cs, c ≠ 0 ∧ W_CleanupName_loop (k + 1) x = lowerChar c :: W_CleanupName_loop k cs := by
  cases x with
  | nil => left; simp [W_CleanupName_loop, List.replicate_succ]
  | cons c cs =>
    by_cases hc : c = 0
    · left; simp [W_CleanupName_loop, hc, List.replicate_succ]
    · right; exact ⟨c, cs, hc, by simp [W_CleanupName_loop, hc]⟩

theorem strcmp_zero_mem (a b : List Nat) (h : strcmp a b = some 0) : 0 ∈ a := by
  induction a generalizing b with
  | nil => simp [strcmp] at h
  | cons x xs ih =>
    cases b with
    | nil => simp [strcmp] at h
    | cons y ys =>
      by_cases hxy : x = y
      · by_cases hx : x = 0
        · simp [hx]
        · subst hxy
          simp only [strcmp, ne_eq, not_true_eq_false, if_false, hx] at h
          exact List.mem_cons_of_mem _ (ih ys h)
      · simp only [strcmp, ne_eq, hxy, not_false_eq_true, if_true, Option.some.injEq] at h
        omega

theorem strcmp_keys (k : Nat) (x y : List Nat) (h0 : 0 ∈ W_CleanupName_loop k x) :
    ∃ d, strcmp (W_CleanupName_loop k x) (W_CleanupName_loop k y) = some d
      ∧ (d = 0 ↔ W_CleanupName_loop k x = W_CleanupName_loop k y) := by
  induction k generalizing x y with
  | zero => simp [W_CleanupName_loop] at h0
  | succ k ih =>
    rcases W_CleanupName_loop_succ_cases k x with hx | ⟨c, cs, hc, hx⟩
    · rcases W_CleanupName_loop_succ_cases k y with hy | ⟨c2, cs2, hc2, hy⟩
      · rw [hx, hy]
        exact ⟨0, by simp [strcmp], by simp⟩
      · rw [hx, hy]
        have hl := lowerChar_ne_zero hc2
        have hl2 : ¬ (0 = lowerChar c2) := fun h => hl h.symm
        refine ⟨(0 : Int) - (lowerChar c2 : Int), by simp [strcmp, hl2], ?_⟩
        constructor
        · intro h; omega
        · intro h
          simp only [List.cons.injEq] at h
          exact absurd h.1 hl2
    · have hl := lowerChar_ne_zero hc
      rw [hx] at h0
      have h0k : 0 ∈ W_CleanupName_loop k cs := by
        rcases List.mem_cons.mp h0 with h | h
        · exact absurd h.symm hl
        · exact h
      rcases W_CleanupName_loop_succ_cases k y with hy | ⟨c2, cs2, hc2, hy⟩
      · rw [hx, hy]
        refine ⟨(lowerChar c : Int) - (0 : Int), by simp [strcmp, hl], ?_⟩
        constructor
        · intro h; omega
        · intro h
          simp only [List.cons.injEq] at h
          exact absurd h.1 hl
      · rw [hx, hy]
        by_cases he : lowerChar c = lowerChar c2
        · obtain ⟨d, hd, hiff⟩ := ih cs cs2 h0k
          refine ⟨d, ?_, ?_⟩
          · rw [← he]
            simp [strcmp, hl, hd]
          · rw [hiff, he]
            simp
        · refine ⟨(lowerChar c : Int) - (lowerChar c2 : Int), by simp [strcmp, he], ?_⟩
          constructor
          · intro h; omega
          · intro h
            simp only [List.cons.injEq] at h
            exact absurd h.1 he

theorem W_GetLumpinfo_loop_zero_mem (clean : List Nat) (lumps : List lumpinfo_t)
    (k i j : Nat) (h : W_GetLumpinfo_loop clean lumps k i = Res.ok (some j)) : 0 ∈ clean := by
  induction k generalizing i with
  | zero => simp [W_GetLumpinfo_loop] at h
  | succ k ih =>
    unfold W_GetLumpinfo_loop at h
    split at h
    · exact absurd h (by simp)
    · split at h
      · exact absurd h (by simp)
      · rename_i lump_p _ d hd
        by_cases hz : d = 0
        · subst hz
          exact strcmp_zero_mem _ _ hd
        · simp only [hz, if_false] at h
          exact ih (i + 1) h

theorem W_GetLumpinfo_loop_keys (name : List Nat) (lumps : List lumpinfo_t)
    (h0 : 0 ∈ W_CleanupName name)
    (hk : ∀ l ∈ lumps, W_CleanupName l.name = l.name) (k i : Nat)
    (hlen : i + k = lumps.length) :
    W_GetLumpinfo_loop (W_CleanupName name) lumps k i
      = Res.ok (firstMatch (W_CleanupName name) (lumps.drop i) i) := by
  induction k generalizing i with
  | zero =>
    have : lumps.drop i = [] := List.drop_eq_nil_of_le (by omega)
    simp [W_GetLumpinfo_loop, this, firstMatch]
  | succ k ih =>
    have hi : i < lumps.length := by omega
    have hdrop : lumps.drop i = lumps[i] :: lumps.drop (i + 1) := List.drop_eq_getElem_cons hi
    have hmem : lumps[i] ∈ lumps := List.getElem_mem hi
    obtain ⟨d, hd, hiff⟩ := strcmp_keys 16 name lumps[i].name h0
    have hd2 : strcmp (W_CleanupName name) lumps[i].name = some d := by
      have := hk _ hmem
      unfold W_CleanupName at this ⊢
      rw [this] at hd
      exact hd
    have hiff2 : d = 0 ↔ lumps[i].name = W_CleanupName name := by
      have := hk _ hmem
      unfold W_CleanupName at this ⊢
      rw [this] at hiff
      rw [hiff]
      exact eq_comm
    unfold W_GetLumpinfo_loop
    rw [hdrop]
    simp only [List.getElem?_eq_getElem hi, hd2, firstMatch]
    by_cases hz : d = 0
    · simp [hz, hiff2.mp hz]
    · have hne : ¬ (lumps[i].name = W_CleanupName name) := fun h => hz (hiff2.mpr h)
      simp only [hz, hne, if_false]
      exact ih (i + 1) (by omega)

/-- For a query whose key holds a zero byte (fewer than sixteen significant
characters) and a directory of `numlumps` records with canonical names,
`W_GetLumpinfo` returns the first record whose name is the key, or `NULL` when
there is none. -/
theorem W_GetLumpinfo_terminated (lumps : List lumpinfo_t) (numlumps : Int)
    (name : List Nat) (h0 : 0 ∈ W_CleanupName name)
    (hk : ∀ l ∈ lumps, W_CleanupName l.name = l.name)
    (hn : numlumps.toNat = lumps.length) :
    W_GetLumpinfo lumps numlumps name
      = Res.ok (firstMatch (W_CleanupName name) lumps 0) := by
  unfold W_GetLumpinfo
  rw [W_GetLumpinfo_loop_keys name lumps h0 hk numlumps.toNat 0 (by omega)]
  simp

/-- C10: a directory of one record whose canonical name fills all sixteen
bytes, asked for that very name: the record's name equals the canonicalized
query, yet `W_GetLumpinfo` does not return it; `clean` holds no terminating
zero, and `strcmp` runs past the end of both sixteen-byte arrays. -/
theorem W_GetLumpinfo_sixteen_characters :
    W_CleanupName (List.replicate 16 65) = (exampleNamed (List.replicate 16 97) 12 4).name
      ∧ W_CleanupName (exampleNamed (List.replicate 16 97) 12 4).name
          = (exampleNamed (List.replicate 16 97) 12 4).name
      ∧ W_GetLumpinfo [exampleNamed (List.replicate 16 97) 12 4] 1 (List.replicate 16 65)
          = Res.undef
      ∧ W_GetLumpinfo [exampleNamed (List.replicate 16 97) 12 4] 1 (List.replicate 16 65)
          ≠ Res.ok (some 0) := by
  decide

/-! ## Lemmas on `W_LoadWadList` -/

theorem W_LoadWadList_cut_members (c : Char) (cs : List Char) :
    wadListMembers (c :: cs)
      = (W_LoadWadList_cut (c :: cs)).1 ::
          (match (W_LoadWadList_cut (c :: cs)).2 with
           | none => []
           | some r => wadListMembers r) := by
  induction cs generalizing c with
  | nil =>
    by_cases hc : c = ';'
    · simp [wadListMembers, W_LoadWadList_cut, hc]
    · simp [wadListMembers, W_LoadWadList_cut, hc]
  | cons d ds ih =>
    by_cases hc : c = ';'
    · simp [wadListMembers, W_LoadWadList_cut, hc]
    · have h := ih d
      rw [wadListMembers.eq_2]
      simp only [hc, if_false]
      rw [h]
      simp [W_LoadWadList_cut, hc]

theorem W_LoadWadList_cut_length (s r : List Char) (h : (W_LoadWadList_cut s).2 = some r) :
    r.length < s.length := by
  induction s with
  | nil => simp [W_LoadWadList_cut] at h
  | cons c cs ih =>
    by_cases hc : c = ';'
    · simp only [W_LoadWadList_cut, hc, if_true, Option.some.injEq] at h
      subst h
      simp
    · simp only [W_LoadWadList_cut, hc, if_false] at h
      have := ih h
      simp only [List.length_cons]
      omega

theorem W_LoadWadList_loop_none (env : Env) (fuel : Nat) (wads : List wad_t) :
    W_LoadWadList_loop env fuel none wads = wads := by
  cases fuel <;> simp [W_LoadWadList_loop]

theorem W_LoadWadList_loop_eq (env : Env) (fuel : Nat) (s : List Char) (wads : List wad_t)
    (hf : s.length ≤ fuel) :
    W_LoadWadList_loop env fuel (some s) wads
      = ((wadListMembers s).filterMap (W_LoadWadList_member env)).reverse ++ wads := by
  induction fuel generalizing s wads with
  | zero =>
    have : s = [] := List.length_eq_zero.mp (by omega)
    subst this
    simp [W_LoadWadList_loop, wadListMembers]
  | succ fuel ih =>
    cases s with
    | nil => simp [W_LoadWadList_loop, wadListMembers]
    | cons c cs =>
      rw [W_LoadWadList_cut_members c cs]
      simp only [W_LoadWadList_loop]
      cases he : (W_LoadWadList_cut (c :: cs)).2 with
      | none =>
        cases hm : W_LoadWadList_member env (W_LoadWadList_cut (c :: cs)).1 with
        | none => simp [W_LoadWadList_loop_none, List.filterMap_cons, hm]
        | some wad => simp [W_LoadWadList_loop_none, List.filterMap_cons, hm]
      | some r =>
        have hr : r.length ≤ fuel := by
          have := W_LoadWadList_cut_length _ _ he
          simp only [List.length_cons] at this hf
          omega
        cases hm : W_LoadWadList_member env (W_LoadWadList_cut (c :: cs)).1 with
        | none => simp [ih r wads hr, List.filterMap_cons, hm]
        | some wad => simp [ih r (wad :: wads) hr, List.filterMap_cons, hm]

/-- The loop of `W_LoadWadList` never runs out of iterations: the chain is the
list of the archives its members yield, last-listed first. -/
theorem W_LoadWadList_eq (env : Env) (names : List Char) :
    W_LoadWadList env names
      = ((wadListMembers names).filterMap (W_LoadWadList_member env)).reverse := by
  unfold W_LoadWadList
  rw [W_LoadWadList_loop_eq env names.length names [] (le_refl _)]
  simp

theorem wadListMembers_no_separator (s : List Char) :
    ∀ m ∈ wadListMembers s, ';' ∉ m := by
  induction s with
  | nil => simp [wadListMembers]
  | cons c cs ih =>
    by_cases hc : c = ';'
    · intro m hm
      simp only [wadListMembers, hc, if_true, List.mem_cons] at hm
      rcases hm with rfl | hm
      · simp
      · exact ih m hm
    · intro m hm
      rw [wadListMembers.eq_2] at hm
      simp only [hc, if_false] at hm
      cases hms : wadListMembers cs with
      | nil =>
        rw [hms] at hm
        simp only [List.mem_singleton] at hm
        subst hm
        simp only [List.mem_singleton]
        exact fun h => hc h.symm
      | cons m0 ms =>
        rw [hms] at hm ih
        simp only [List.mem_cons] at hm
        rcases hm with rfl | hm
        · have := ih m0 (List.mem_cons_self _ _)
          simp only [List.mem_cons, not_or]
          exact ⟨fun h => hc h.symm, this⟩
        · exact ih m (List.mem_cons_of_mem _ hm)

theorem wadListMembers_append_separator (m rest : List Char) (hm : ';' ∉ m) :
    wadListMembers (m ++ ';' :: rest) = m :: wadListMembers rest := by
  induction m with
  | nil => simp [wadListMembers]
  | cons c cs ih =>
    simp only [List.mem_cons, not_or] at hm
    have hc : ¬ (c = ';') := fun h => hm.1 h.symm
    rw [List.cons_append, wadListMembers.eq_2]
    simp only [hc, if_false]
    rw [ih hm.2]

theorem wadListMembers_joinMembers (ms : List (List Char)) (h : ∀ m ∈ ms, ';' ∉ m) :
    wadListMembers (joinMembers ms) = ms := by
  induction ms with
  | nil => simp [joinMembers, wadListMembers]
  | cons m ms ih =>
    rw [joinMembers, wadListMembers_append_separator m _ (h m (List.mem_cons_self _ _))]
    rw [ih (fun m2 h2 => h m2 (List.mem_cons_of_mem _ h2))]

theorem filterMap_filter_isSome {α β : Type} (f : α → Option β) (l : List α) :
    (l.filter (fun a => (f a).isSome)).filterMap f = l.filterMap f := by
  induction l with
  | nil => simp
  | cons a l ih =>
    cases h : f a with
    | none => simp [List.filter_cons, List.filterMap_cons, h, ih]
    | some b => simp [List.filter_cons, List.filterMap_cons, h, ih]

/-! ## Invariants of a loaded archive -/

theorem W_AddWadFile_parse_name (length : Int) (info : lumpinfo_t) :
    (W_AddWadFile_parse length info).name = W_CleanupName info.name := by
  unfold W_AddWadFile_parse
  simp only []
  split_ifs <;> rfl

theorem W_AddWadFile_loaded (env : Env) (name : List Char) (fh : fshandle_t) (w : wad_t)
    (h : W_AddWadFile env name fh = some w) : wadLoaded w := by
  unfold W_AddWadFile at h
  simp only [] at h
  split_ifs at h
  simp only [Option.some.injEq] at h
  subst h
  constructor
  · simp
  · intro l hl
    simp only [List.mem_map] at hl
    obtain ⟨r, -, rfl⟩ := hl
    rw [W_AddWadFile_parse_name]
    exact W_CleanupName_loop_idem 16 r.name

theorem W_LoadWadList_member_loaded (env : Env) (m : List Char) (w : wad_t)
    (h : W_LoadWadList_member env m = some w) : wadLoaded w := by
  unfold W_LoadWadList_member at h
  simp only [] at h
  split at h
  · exact W_AddWadFile_loaded _ _ _ _ h
  · split at h
    · exact absurd h (by simp)
    · exact W_AddWadFile_loaded _ _ _ _ h

theorem W_LoadWadList_loaded (env : Env) (names : List Char) :
    ∀ w ∈ W_LoadWadList env names, wadLoaded w := by
  intro w hw
  rw [W_LoadWadList_eq, List.mem_reverse, List.mem_filterMap] at hw
  obtain ⟨m, -, hm⟩ := hw
  exact W_LoadWadList_member_loaded env m w hm

/-! ## Lemmas on `W_GetLumpinfoList` -/

theorem W_GetLumpinfoList_from_first (name : List Nat) (c : List wad_t)
    (hok : ∀ w ∈ c, ∃ r, W_GetLumpinfo w.lumps w.numlumps name = Res.ok r)
    (hex : ∃ w ∈ c, ∃ i, W_GetLumpinfo w.lumps w.numlumps name = Res.ok (some i)) :
    ∃ front w back i, c = front ++ w :: back
      ∧ (∀ w2 ∈ front, W_GetLumpinfo w2.lumps w2.numlumps name = Res.ok none)
      ∧ W_GetLumpinfo w.lumps w.numlumps name = Res.ok (some i)
      ∧ ∀ k, W_GetLumpinfoList_from name k c = Res.ok (some (k + front.length, i)) := by
  induction c with
  | nil =>
    obtain ⟨w, hw, -⟩ := hex
    simp at hw
  | cons w0 rest ih =>
    obtain ⟨r, hr⟩ := hok w0 (List.mem_cons_self _ _)
    cases r with
    | some i =>
      refine ⟨[], w0, rest, i, by simp, by simp, hr, ?_⟩
      intro k
      simp [W_GetLumpinfoList_from, hr]
    | none =>
      have hex2 : ∃ w ∈ rest, ∃ i, W_GetLumpinfo w.lumps w.numlumps name = Res.ok (some i) := by
        obtain ⟨w, hw, i, hi⟩ := hex
        rcases List.mem_cons.mp hw with rfl | hw
        · rw [hr] at hi
          simp at hi
        · exact ⟨w, hw, i, hi⟩
      obtain ⟨front, w, back, i, hc, hfront, hw, hres⟩ :=
        ih (fun w hw => hok w (List.mem_cons_of_mem _ hw)) hex2
      refine ⟨w0 :: front, w, back, i, by simp [hc], ?_, hw, ?_⟩
      · intro w2 hw2
        rcases List.mem_cons.mp hw2 with rfl | hw2
        · exact hr
        · exact hfront w2 hw2
      · intro k
        simp only [W_GetLumpinfoList_from, hr, hres, List.length_cons]
        congr 3
        omega

theorem W_GetLumpinfo_loaded_ok (w : wad_t) (hw : wadLoaded w) (name : List Nat)
    (h0 : 0 ∈ W_CleanupName name) :
    ∃ r, W_GetLumpinfo w.lumps w.numlumps name = Res.ok r :=
  ⟨_, W_GetLumpinfo_terminated w.lumps w.numlumps name h0 hw.2 hw.1⟩

theorem W_LoadWadList_lookup_first (env : Env) (names : List Char) (name : List Nat)
    (w0 : wad_t) (i0 : Nat) (hw0 : w0 ∈ W_LoadWadList env names)
    (hi0 : W_GetLumpinfo w0.lumps w0.numlumps name = Res.ok (some i0)) :
    ∃ front w back i, W_LoadWadList env names = front ++ w :: back
      ∧ (∀ w2 ∈ front, W_GetLumpinfo w2.lumps w2.numlumps name = Res.ok none)
      ∧ W_GetLumpinfo w.lumps w.numlumps name = Res.ok (some i)
      ∧ W_GetLumpinfoList (W_LoadWadList env names) name
          = Res.ok (some (front.length, i)) := by
  have h0 : 0 ∈ W_CleanupName name := W_GetLumpinfo_loop_zero_mem _ _ _ _ _ hi0
  have hok : ∀ w ∈ W_LoadWadList env names,
      ∃ r, W_GetLumpinfo w.lumps w.numlumps name = Res.ok r :=
    fun w hw => W_GetLumpinfo_loaded_ok w (W_LoadWadList_loaded env names w hw) name h0
  obtain ⟨front, w, back, i, hc, hfront, hw, hres⟩ :=
    W_GetLumpinfoList_from_first name (W_LoadWadList env names) hok ⟨w0, hw0, i0, hi0⟩
  refine ⟨front, w, back, i, hc, hfront, hw, ?_⟩
  have := hres 0
  simpa [W_GetLumpinfoList] using this

theorem length_filterMap_of_isSome {α β : Type} (f : α → Option β) (l : List α)
    (h : ∀ a ∈ l, (f a).isSome = true) : (l.filterMap f).length = l.length := by
  induction l with
  | nil => simp
  | cons a l ih =>
    have ha := h a (List.mem_cons_self _ _)
    obtain ⟨b, hb⟩ := Option.isSome_iff_exists.mp ha
    simp [List.filterMap_cons, hb, ih (fun x hx => h x (List.mem_cons_of_mem _ hx))]

/-! ## The chain: last-listed wins and skipped members, for names a lookup can find -/

/-- Last-listed wins for the names that a lookup can find: when the directory
lookup `W_GetLumpinfo` of some archive of the chain built by `W_LoadWadList`
finds the name (which needs a key with a zero byte), the archives loaded
from the list, in listed order, split as `pre ++ w :: post` where `w` defines
the name and no archive listed after it does; the chain is the reverse of that
list, and `W_GetLumpinfoList` returns the record that the lookup in `w` finds,
with `w` (the archive `post.length` links from the head) as owning archive. -/
theorem W_GetLumpinfoList_last_listed (env : Env) (names : List Char) (name : List Nat)
    (w0 : wad_t) (i0 : Nat) (hw0 : w0 ∈ W_LoadWadList env names)
    (hi0 : W_GetLumpinfo w0.lumps w0.numlumps name = Res.ok (some i0)) :
    ∃ pre w post i,
      (wadListMembers names).filterMap (W_LoadWadList_member env) = pre ++ w :: post
        ∧ W_GetLumpinfo w.lumps w.numlumps name = Res.ok (some i)
        ∧ (∀ w2 ∈ post, W_GetLumpinfo w2.lumps w2.numlumps name = Res.ok none)
        ∧ W_LoadWadList env names = post.reverse ++ w :: pre.reverse
        ∧ (W_LoadWadList env names)[post.length]? = some w
        ∧ W_GetLumpinfoList (W_LoadWadList env names) name
            = Res.ok (some (post.length, i)) := by
  obtain ⟨front, w, back, i, hc, hfront, hw, hres⟩ :=
    W_LoadWadList_lookup_first env names name w0 i0 hw0 hi0
  have hrev : (wadListMembers names).filterMap (W_LoadWadList_member env)
      = back.reverse ++ w :: front.reverse := by
    have h := congrArg List.reverse hc
    rw [W_LoadWadList_eq, List.reverse_reverse] at h
    rw [h]
    simp
  refine ⟨back.reverse, w, front.reverse, i, hrev, hw, ?_, ?_, ?_, ?_⟩
  · intro w2 hw2
    exact hfront w2 (List.mem_reverse.mp hw2)
  · simpa using hc
  · rw [hc, List.length_reverse, List.getElem?_append_right (le_refl _)]
    simp
  · simpa using hres

/-- Example of last-listed wins: in the example environment the list `a;bad;empty;b` loads
`a.wad` and `gfx/b.wad`, both of which define `X`; the lookup of `X` is
answered from the head of the chain, which is the archive of `b`. -/
theorem W_GetLumpinfoList_last_listed_witness :
    (W_LoadWadList exampleEnv exampleNames).map (fun w => w.name)
        = [['g', 'f', 'x', '/', 'b', '.', 'w', 'a', 'd'], ['a', '.', 'w', 'a', 'd']]
      ∧ W_GetLumpinfoList (W_LoadWadList exampleEnv exampleNames) [88] = Res.ok (some (0, 0))
      ∧ ∃ pre w post i,
          (wadListMembers exampleNames).filterMap (W_LoadWadList_member exampleEnv)
              = pre ++ w :: post
            ∧ W_GetLumpinfo w.lumps w.numlumps [88] = Res.ok (some i)
            ∧ (∀ w2 ∈ post, W_GetLumpinfo w2.lumps w2.numlumps [88] = Res.ok none)
            ∧ W_LoadWadList exampleEnv exampleNames = post.reverse ++ w :: pre.reverse
            ∧ (W_LoadWadList exampleEnv exampleNames)[post.length]? = some w
            ∧ W_GetLumpinfoList (W_LoadWadList exampleEnv exampleNames) [88]
                = Res.ok (some (post.length, i)) :=
  ⟨by decide, by rfl,
    W_GetLumpinfoList_last_listed exampleEnv exampleNames [88]
      ((W_LoadWadList exampleEnv exampleNames).get ⟨1, by decide⟩) 0
      (List.get_mem _ _ _) (by rfl)⟩

theorem W_AddWadFile_isSome_headerValid (env : Env) (name : List Char) (fh : fshandle_t) :
    (W_AddWadFile env name fh).isSome = headerValid env fh.file.header := by
  unfold W_AddWadFile headerValid
  simp only []
  split_ifs with ha hb hc
  · have : ¬ (W_AddWadFile_id fh.file.header = env.WADID
        ∨ W_AddWadFile_id fh.file.header = env.WADID_VALVE) := by
      rintro (h | h)
      · exact ha.1 h
      · exact ha.2 h
    simp [this]
  · rcases hb with hb | hb
    · simp [hb]
    · simp [hb]
  · simp [hc]
  · have h1 : W_AddWadFile_id fh.file.header = env.WADID
        ∨ W_AddWadFile_id fh.file.header = env.WADID_VALVE := by
      by_contra hne
      push_neg at hne
      exact ha hne
    have h2 : ¬ (LittleLong fh.file.header.numlumps < 0) := fun h => hb (Or.inl h)
    have h3 : ¬ (LittleLong fh.file.header.infotableofs < 0) := fun h => hb (Or.inr h)
    simp only [Option.isSome_some]
    symm
    rw [decide_eq_true_iff]
    exact ⟨h1, h2, h3, hc⟩

theorem W_LoadWadList_member_isSome (env : Env) (m : List Char) :
    (W_LoadWadList_member env m).isSome = memberValid env m := by
  unfold W_LoadWadList_member memberValid
  simp only []
  cases W_OpenWadFile env
      (env.COM_AddExtension (env.COM_FileBase m env.MAX_QPATH) ['.', 'w', 'a', 'd']
        env.MAX_QPATH) with
  | some fh => exact W_AddWadFile_isSome_headerValid _ _ _
  | none =>
    cases W_OpenWadFile env ((['g', 'f', 'x', '/'] ++
        env.COM_AddExtension (env.COM_FileBase m env.MAX_QPATH) ['.', 'w', 'a', 'd']
          env.MAX_QPATH).take (env.MAX_QPATH - 1)) with
    | some fh => exact W_AddWadFile_isSome_headerValid _ _ _
    | none => rfl

/-- Skipped members leave the chain alone: the chain built from an identifier
list is the chain built from the list of its valid members alone (those that open, directly or under `gfx/`, and
pass header validation); a skipped member adds no entry, so the chain has one
archive for each valid member; and every name that the directory lookup finds
in the archive of a valid member is found by `W_GetLumpinfoList` in the
chain. -/
theorem W_LoadWadList_skips_failed (env : Env) (names : List Char) :
    W_LoadWadList env names
        = W_LoadWadList env (joinMembers ((wadListMembers names).filter (memberValid env)))
      ∧ (W_LoadWadList env names).length
          = ((wadListMembers names).filter (memberValid env)).length
      ∧ (∀ m ∈ wadListMembers names, memberValid env m = false →
          W_LoadWadList_member env m = none)
      ∧ (∀ m ∈ wadListMembers names, ∀ w, W_LoadWadList_member env m = some w →
          w ∈ W_LoadWadList env names
            ∧ ∀ name i, W_GetLumpinfo w.lumps w.numlumps name = Res.ok (some i) →
                ∃ r, W_GetLumpinfoList (W_LoadWadList env names) name = Res.ok (some r)) := by
  have hfun : (fun m => (W_LoadWadList_member env m).isSome) = memberValid env :=
    funext (W_LoadWadList_member_isSome env)
  have hkeep : ((wadListMembers names).filter (memberValid env)).filterMap
      (W_LoadWadList_member env)
        = (wadListMembers names).filterMap (W_LoadWadList_member env) := by
    rw [← hfun]
    exact filterMap_filter_isSome _ _
  have hsep : ∀ m ∈ (wadListMembers names).filter (memberValid env), ';' ∉ m :=
    fun m hm => wadListMembers_no_separator names m (List.mem_filter.mp hm).1
  refine ⟨?_, ?_, ?_, ?_⟩
  · rw [W_LoadWadList_eq, W_LoadWadList_eq, wadListMembers_joinMembers _ hsep, hkeep]
  · rw [W_LoadWadList_eq, List.length_reverse, ← hkeep]
    apply length_filterMap_of_isSome
    intro m hm
    have := (List.mem_filter.mp hm).2
    rw [← W_LoadWadList_member_isSome] at this
    exact this
  · intro m _ hv
    rw [← W_LoadWadList_member_isSome] at hv
    cases h : W_LoadWadList_member env m with
    | none => rfl
    | some w => simp [h] at hv
  · intro m hm w hw
    have hin : w ∈ W_LoadWadList env names := by
      rw [W_LoadWadList_eq, List.mem_reverse, List.mem_filterMap]
      exact ⟨m, hm, hw⟩
    refine ⟨hin, ?_⟩
    intro name i hi
    obtain ⟨front, w1, back, i1, -, -, -, hres⟩ :=
      W_LoadWadList_lookup_first env names name w i hin hi
    exact ⟨_, hres⟩

/-! ## Lemmas on `W_CleanupName` in memory -/

theorem W_CleanupName_fill_getElem? (out k i : Nat) (mem : List Nat) (a : Nat) :
    (W_CleanupName_fill out k i mem)[a]?
      = if out + i ≤ a ∧ a < out + i + k ∧ a < mem.length then some 0 else mem[a]? := by
  induction k generalizing i mem with
  | zero =>
    have : ¬ (out + i ≤ a ∧ a < out + i + 0 ∧ a < mem.length) := by omega
    rw [W_CleanupName_fill, if_neg this]
  | succ k ih =>
    rw [W_CleanupName_fill, ih, List.length_set, List.getElem?_set]
    by_cases h1 : out + i = a
    · subst h1
      by_cases h2 : out + i < mem.length
      · have c1 : ¬ (out + (i + 1) ≤ out + i ∧ out + i < out + (i + 1) + k
            ∧ out + i < mem.length) := by omega
        have c2 : out + i ≤ out + i ∧ out + i < out + i + (k + 1)
            ∧ out + i < mem.length := by omega
        simp [c1, c2, h2]
      · have c1 : ¬ (out + (i + 1) ≤ out + i ∧ out + i < out + (i + 1) + k
            ∧ out + i < mem.length) := by omega
        have c2 : ¬ (out + i ≤ out + i ∧ out + i < out + i + (k + 1)
            ∧ out + i < mem.length) := by omega
        have h3 : mem[out + i]? = none := List.getElem?_eq_none (by omega)
        simp [c1, c2, h2, h3]
    · by_cases c1 : out + (i + 1) ≤ a ∧ a < out + (i + 1) + k ∧ a < mem.length
      · have c2 : out + i ≤ a ∧ a < out + i + (k + 1) ∧ a < mem.length := by omega
        simp [c1, c2]
      · have c2 : ¬ (out + i ≤ a ∧ a < out + i + (k + 1) ∧ a < mem.length) := by omega
        simp [c1, c2, h1]

theorem take_drop_set_eq (l : List Nat) (p v d k : Nat) (h : p < d ∨ d + k ≤ p) :
    ((l.set p v).drop d).take k = (l.drop d).take k := by
  apply List.ext_getElem?
  intro j
  rw [List.getElem?_take, List.getElem?_take]
  by_cases hj : j < k
  · have hne : p ≠ d + j := by omega
    simp [hj, List.getElem?_drop, List.getElem?_set_ne hne]
  · simp [hj]

theorem W_CleanupName_loop_drop_set (l : List Nat) (p v d k : Nat)
    (h : p < d ∨ d + k ≤ p) :
    W_CleanupName_loop k ((l.set p v).drop d) = W_CleanupName_loop k (l.drop d) := by
  rw [← W_CleanupName_loop_take k ((l.set p v).drop d), take_drop_set_eq l p v d k h,
    W_CleanupName_loop_take]

theorem W_CleanupName_run_getElem? (inp out k i : Nat) (mem : List Nat) (a : Nat)
    (hsafe : out ≤ inp ∨ inp + i + k ≤ out) :
    (W_CleanupName_run inp out k i mem)[a]?
      = if out + i ≤ a ∧ a < out + i + k ∧ a < mem.length then
          (W_CleanupName_loop k (mem.drop (inp + i)))[a - (out + i)]?
        else mem[a]? := by
  induction k generalizing i mem with
  | zero =>
    have : ¬ (out + i ≤ a ∧ a < out + i + 0 ∧ a < mem.length) := by omega
    rw [W_CleanupName_run, if_neg this]
  | succ k ih =>
    by_cases hlen : inp + i < mem.length
    · have hdrop : mem.drop (inp + i) = mem[inp + i] :: mem.drop (inp + i + 1) :=
        List.drop_eq_getElem_cons hlen
      have hget : mem.getD (inp + i) 0 = mem[inp + i] := by
        simp [List.getElem?_eq_getElem hlen]
      by_cases hc : mem[inp + i] = 0
      · rw [W_CleanupName_run, hget, if_pos hc, W_CleanupName_fill_getElem?, hdrop]
        simp only [W_CleanupName_loop, hc, if_true]
        by_cases c : out + i ≤ a ∧ a < out + i + (k + 1) ∧ a < mem.length
        · have : a - (out + i) < k + 1 := by omega
          simp [c, List.getElem?_replicate, this]
        · simp [c]
      · rw [W_CleanupName_run, hget, if_neg hc,
          ih (i + 1) _ (by omega), List.length_set, hdrop]
        simp only [W_CleanupName_loop, hc, if_false]
        rw [show inp + (i + 1) = inp + i + 1 from rfl,
          W_CleanupName_loop_drop_set mem (out + i) _ (inp + i + 1) k (by omega)]
        by_cases h1 : out + i = a
        · subst h1
          have c1 : ¬ (out + (i + 1) ≤ out + i ∧ out + i < out + (i + 1) + k
              ∧ out + i < mem.length) := by omega
          by_cases h2 : out + i < mem.length
          · have c2 : out + i ≤ out + i ∧ out + i < out + i + (k + 1)
                ∧ out + i < mem.length := by omega
            simp [c1, c2, h2]
          · have c2 : ¬ (out + i ≤ out + i ∧ out + i < out + i + (k + 1)
                ∧ out + i < mem.length) := by omega
            have h3 : mem[out + i]? = none := List.getElem?_eq_none (by omega)
            simp [c1, c2, h2, h3, List.getElem?_set]
        · by_cases c1 : out + (i + 1) ≤ a ∧ a < out + (i + 1) + k ∧ a < mem.length
          · have c2 : out + i ≤ a ∧ a < out + i + (k + 1) ∧ a < mem.length := by omega
            have h4 : a - (out + i) = (a - (out + (i + 1))) + 1 := by omega
            rw [if_pos c1, if_pos c2, h4, List.getElem?_cons_succ]
          · have c2 : ¬ (out + i ≤ a ∧ a < out + i + (k + 1) ∧ a < mem.length) := by omega
            rw [if_neg c1, if_neg c2, List.getElem?_set_ne h1]
    · have hdrop : mem.drop (inp + i) = [] := List.drop_eq_nil_of_le (by omega)
      have hget : mem.getD (inp + i) 0 = 0 := by
        simp [List.getElem?_eq_none (Nat.le_of_not_lt hlen)]
      rw [W_CleanupName_run, if_pos hget, W_CleanupName_fill_getElem?, hdrop]
      simp only [W_CleanupName_loop]
      by_cases c : out + i ≤ a ∧ a < out + i + (k + 1) ∧ a < mem.length
      · have : a - (out + i) < k + 1 := by omega
        simp [c, List.getElem?_replicate, this]
      · simp [c]

theorem W_CleanupName_mem_same_buffer (b : List Nat) (hb : b.length = 16) :
    W_CleanupName_mem b 0 0 = W_CleanupName b := by
  apply List.ext_getElem?
  intro a
  unfold W_CleanupName_mem
  rw [W_CleanupName_run_getElem? 0 0 16 0 b a (Or.inl (le_refl _))]
  by_cases ha : a < 16
  · have c : 0 + 0 ≤ a ∧ a < 0 + 0 + 16 ∧ a < b.length := by omega
    rw [if_pos c]
    simp [W_CleanupName]
  · have c : ¬ (0 + 0 ≤ a ∧ a < 0 + 0 + 16 ∧ a < b.length) := by omega
    rw [if_neg c, List.getElem?_eq_none (by omega),
      List.getElem?_eq_none (by rw [W_CleanupName, W_CleanupName_loop_length]; omega)]

theorem W_CleanupName_mem_other_buffer (b o : List Nat) (hb : b.length = 16)
    (ho : o.length = 16) :
    W_CleanupName_mem (b ++ o) 0 16 = b ++ W_CleanupName b := by
  have hkey : W_CleanupName_loop 16 (b ++ o) = W_CleanupName b := by
    rw [← W_CleanupName_loop_take 16 (b ++ o), List.take_left' hb]
    rfl
  have hklen : (W_CleanupName b).length = 16 := W_CleanupName_loop_length 16 b
  apply List.ext_getElem?
  intro a
  unfold W_CleanupName_mem
  rw [W_CleanupName_run_getElem? 0 16 16 0 (b ++ o) a (Or.inr (by omega))]
  by_cases ha : 16 ≤ a ∧ a < 32
  · have c : 16 + 0 ≤ a ∧ a < 16 + 0 + 16 ∧ a < (b ++ o).length := by
      rw [List.length_append]; omega
    rw [if_pos c, List.getElem?_append_right (by omega)]
    simp [hkey, hb]
  · have c : ¬ (16 + 0 ≤ a ∧ a < 16 + 0 + 16 ∧ a < (b ++ o).length) := by
      rw [List.length_append]; omega
    rw [if_neg c]
    by_cases h16 : a < 16
    · rw [List.getElem?_append_left (by omega), List.getElem?_append_left (by omega)]
    · rw [List.getElem?_eq_none (by rw [List.length_append]; omega),
        List.getElem?_eq_none (by rw [List.length_append]; omega)]

/-! ## Claims on `W_CleanupName`, continued -/

/-- C11: the key of a name of sixteen characters holds no zero byte:
`W_CleanupName` writes sixteen lowercased characters and no terminating 0. -/
theorem W_CleanupName_no_terminator :
    W_CleanupName (List.replicate 16 65) = List.replicate 16 97
      ∧ 0 ∉ W_CleanupName (List.replicate 16 65)
      ∧ (W_CleanupName (List.replicate 16 65)).length = 16 := by
  decide

/-- C12: `W_CleanupName` can be performed in place: for every sixteen-byte
buffer `b`, the run with `in = out = b` leaves in `b` the bytes that the run on
a copy of `b` leaves in a separate output buffer `o` (whatever `o` held), which
are the key `W_CleanupName b`; the copying run leaves its input as it was. -/
theorem W_CleanupName_in_place (b o : List Nat) (hb : b.length = 16) (ho : o.length = 16) :
    W_CleanupName_mem b 0 0 = (W_CleanupName_mem (b ++ o) 0 16).drop 16
      ∧ W_CleanupName_mem b 0 0 = W_CleanupName b
      ∧ (W_CleanupName_mem (b ++ o) 0 16).take 16 = b := by
  rw [W_CleanupName_mem_other_buffer b o hb ho, W_CleanupName_mem_same_buffer b hb]
  refine ⟨?_, rfl, ?_⟩
  · rw [List.drop_left' hb]
  · rw [List.take_left' hb]

/-- Witness of C12: the buffer holding `Ab` followed by a zero and thirteen
bytes `Z`, cleaned in place and cleaned into a buffer of sixteen bytes 255. -/
theorem W_CleanupName_in_place_witness :
    W_CleanupName_mem ([65, 98, 0] ++ List.replicate 13 90) 0 0
        = [97, 98] ++ List.replicate 14 0
      ∧ (W_CleanupName_mem ([65, 98, 0] ++ List.replicate 13 90) 0 0
          = (W_CleanupName_mem
              (([65, 98, 0] ++ List.replicate 13 90) ++ List.replicate 16 255) 0 16).drop 16
        ∧ W_CleanupName_mem ([65, 98, 0] ++ List.replicate 13 90) 0 0
            = W_CleanupName ([65, 98, 0] ++ List.replicate 13 90)
        ∧ (W_CleanupName_mem
              (([65, 98, 0] ++ List.replicate 13 90) ++ List.replicate 16 255) 0 16).take 16
            = [65, 98, 0] ++ List.replicate 13 90) :=
  ⟨by decide,
    W_CleanupName_in_place ([65, 98, 0] ++ List.replicate 13 90) (List.replicate 16 255)
      (by decide) (by decide)⟩

/-! ## Claims on the sanitization pass, continued -/

theorem wrap32_le_self (x : Int) (h : 0 ≤ x) : wrap32 x ≤ x := by
  unfold wrap32
  omega

/-- C14: for every archive length (in particular every length that is
not negative) and every directory record, the size of the record after the sanitization pass of
`W_AddWadFile` is not negative. -/
theorem W_AddWadFile_parse_size_nonneg (length : Int) (info : lumpinfo_t) :
    0 ≤ (W_AddWadFile_parse length info).size := by
  unfold W_AddWadFile_parse
  simp only []
  split_ifs with h1 h2 h3 h4 h5 <;> simp only [q_max] <;> (try split_ifs) <;> omega

/-- C16: a record with `0 ≤ filepos`, `0 ≤ size` and `filepos + size` not
beyond the archive length leaves the sanitization pass with `filepos` and
`size` as decoded, whatever its `disksize`. -/
theorem W_AddWadFile_parse_well_formed (length : Int) (info : lumpinfo_t)
    (hpos : 0 ≤ info.filepos) (hsize : 0 ≤ info.size)
    (hfit : info.filepos + info.size ≤ length) :
    (W_AddWadFile_parse length info).filepos = LittleLong info.filepos
      ∧ (W_AddWadFile_parse length info).size = LittleLong info.size := by
  have hw : ¬ (int_add info.filepos info.size > length) := by
    have := wrap32_le_self (info.filepos + info.size) (by omega)
    unfold int_add
    omega
  have h1 : ¬ (info.filepos < 0) := by omega
  have h2 : ¬ (info.size < 0) := by omega
  simp [W_AddWadFile_parse, LittleLong, hw, h1, h2]

/-- Witness of C16: archive length 10, `filepos = 2`, `size = 8`, and a
`disksize` of -7. -/
theorem W_AddWadFile_parse_well_formed_witness :
    (W_AddWadFile_parse 10 (exampleLump 2 8 (-7))).filepos = 2
      ∧ (W_AddWadFile_parse 10 (exampleLump 2 8 (-7))).size = 8 :=
  W_AddWadFile_parse_well_formed 10 (exampleLump 2 8 (-7)) (by decide) (by decide) (by decide)

/-- C17: at archive length 10 the record `filepos = -5, size = 3` (with
`disksize = 3`) has a decoded size that is not negative and leaves the
sanitization pass with size 8, larger than before. -/
theorem W_AddWadFile_parse_grows :
    0 ≤ (exampleLump (-5) 3 3).size
      ∧ (W_AddWadFile_parse 10 (exampleLump (-5) 3 3)).size = 8
      ∧ ¬ ((W_AddWadFile_parse 10 (exampleLump (-5) 3 3)).size ≤ (exampleLump (-5) 3 3).size)
      ∧ (W_AddWadFile_parse 10 (exampleLump (-5) 3 3)).filepos = -5 := by
  decide

/-! ## Claims on the singleton blob -/

theorem W_LoadWadFile_loop_ne_fatal (TYP_QPIC length : Int) (k i : Nat)
    (wad_lumps : List lumpinfo_t) :
    W_LoadWadFile_loop TYP_QPIC length k i wad_lumps ≠ Res.fatal := by
  induction k generalizing i wad_lumps with
  | zero => simp [W_LoadWadFile_loop]
  | succ k ih =>
    unfold W_LoadWadFile_loop
    split
    · simp
    · simp only []
      split_ifs
      · simp
      · exact ih _ _

theorem W_AddWadFile_id_WAD2 (header : wadinfo_t)
    (h : header.identification = (87, 65, 68, 50)) : W_AddWadFile_id header = 843333975 := by
  unfold W_AddWadFile_id
  rw [h]
  decide

/-- C13: `W_LoadWadFile` ends in `Sys_Error` if and only if the file could not
be loaded or its four magic characters are not `W`, `A`, `D`, `2`; in
particular a file whose magic decodes to `WADID_VALVE`, which `W_AddWadFile`
accepts, is fatal here, `WADID_VALVE` being another value than the 843333975
that `WAD2` decodes to. -/
theorem W_LoadWadFile_fatal_iff (TYP_QPIC : Int) (file : Option Loaded) :
    (W_LoadWadFile TYP_QPIC file = Res.fatal ↔
        file = none ∨ ∃ f, file = some f ∧ f.header.identification ≠ (87, 65, 68, 50))
      ∧ (∀ (env : Env) (f : Loaded), file = some f →
          W_AddWadFile_id f.header = env.WADID_VALVE → env.WADID_VALVE ≠ 843333975 →
          W_LoadWadFile TYP_QPIC file = Res.fatal) := by
  have hiff : W_LoadWadFile TYP_QPIC file = Res.fatal ↔
      file = none ∨ ∃ f, file = some f ∧ f.header.identification ≠ (87, 65, 68, 50) := by
    cases file with
    | none => simp [W_LoadWadFile]
    | some f =>
      rcases hid : f.header.identification with ⟨a, b, c, d⟩
      unfold W_LoadWadFile
      simp only [hid]
      by_cases hm : a ≠ 87 ∨ b ≠ 65 ∨ c ≠ 68 ∨ d ≠ 50
      · rw [if_pos hm]
        have : (a, b, c, d) ≠ ((87, 65, 68, 50) : Int × Int × Int × Int) := by
          intro h
          simp only [Prod.mk.injEq] at h
          omega
        simp [hid, this]
      · rw [if_neg hm]
        have heq : (a, b, c, d) = ((87, 65, 68, 50) : Int × Int × Int × Int) := by
          simp only [Prod.mk.injEq]
          omega
        have hl := W_LoadWadFile_loop_ne_fatal TYP_QPIC f.length
          (LittleLong f.header.numlumps).toNat 0 (f.directory (LittleLong f.header.infotableofs))
        constructor
        · intro h
          exfalso
          revert h hl
          cases W_LoadWadFile_loop TYP_QPIC f.length (LittleLong f.header.numlumps).toNat 0
            (f.directory (LittleLong f.header.infotableofs)) <;> simp
        · rintro (h | ⟨g, hg, hne⟩)
          · simp at h
          · simp only [Option.some.injEq] at hg
            subst hg
            exact absurd (hid.trans heq) hne
  refine ⟨hiff, ?_⟩
  intro env f hf hv hne
  rw [hiff]
  right
  refine ⟨f, hf, ?_⟩
  intro hid
  exact hne (hv.symm.trans (W_AddWadFile_id_WAD2 f.header hid))

/-- Witness of C13: a stream with the magic `WAD3` is accepted by `W_AddWadFile`
in the example environment (whose `WADID_VALVE` is what `WAD3` decodes to), and
the file with that magic is fatal for `W_LoadWadFile`; with the magic `WAD2`
the file loads. -/
theorem W_LoadWadFile_fatal_iff_witness :
    (W_AddWadFile exampleEnv []
        { file := exampleStream (87, 65, 68, 51) 1 4, length := 100 }).isSome = true
      ∧ W_LoadWadFile 66 (some (exampleFile (87, 65, 68, 50))) = Res.ok exampleLoaded
      ∧ W_LoadWadFile 66 (some (exampleFile (87, 65, 68, 51))) = Res.fatal :=
  ⟨by decide, by decide,
    (W_LoadWadFile_fatal_iff 66 (some (exampleFile (87, 65, 68, 51)))).2 exampleEnv
      (exampleFile (87, 65, 68, 51)) rfl (by decide) (by decide)⟩

theorem firstMatch_some (key : List Nat) (l : List lumpinfo_t) (j i : Nat)
    (h : firstMatch key l j = some i) :
    j ≤ i ∧ ∃ lump, l[i - j]? = some lump ∧ lump.name = key := by
  induction l generalizing j with
  | nil => simp [firstMatch] at h
  | cons x xs ih =>
    by_cases hx : x.name = key
    · simp only [firstMatch, hx, if_true, Option.some.injEq] at h
      subst h
      exact ⟨le_refl _, x, by simp, hx⟩
    · simp only [firstMatch, hx, if_false] at h
      obtain ⟨hle, lump, hl, hn⟩ := ih (j + 1) h
      refine ⟨by omega, lump, ?_, hn⟩
      have : i - j = (i - (j + 1)) + 1 := by omega
      rw [this, List.getElem?_cons_succ]
      exact hl

/-- For a blob whose directory holds `wad_numlumps` records with canonical
names, and a query whose key holds a zero byte: `W_GetLumpName` returns `NULL`
when no record has the key as name, and otherwise `wad_base + filepos` of the
first such record, which is what `W_GetLumpNum` returns for its index. -/
theorem W_GetLumpName_terminated (g : Blob) (name : List Nat)
    (h0 : 0 ∈ W_CleanupName name)
    (hk : ∀ l ∈ g.wad_lumps, W_CleanupName l.name = l.name)
    (hn : g.wad_numlumps.toNat = g.wad_lumps.length) :
    (firstMatch (W_CleanupName name) g.wad_lumps 0 = none →
        W_GetLumpName g name = Res.ok none)
      ∧ (∀ i, firstMatch (W_CleanupName name) g.wad_lumps 0 = some i →
          ∃ lump, g.wad_lumps[i]? = some lump ∧ lump.name = W_CleanupName name
            ∧ W_GetLumpName g name = Res.ok (some (g.wad_base + lump.filepos))
            ∧ W_GetLumpNum g (i : Int) = Res.ok (g.wad_base + lump.filepos)) := by
  have hinfo := W_GetLumpinfo_terminated g.wad_lumps g.wad_numlumps name h0 hk hn
  constructor
  · intro hnone
    rw [hnone] at hinfo
    simp [W_GetLumpName, hinfo]
  · intro i hi
    rw [hi] at hinfo
    obtain ⟨-, lump, hl, hname⟩ := firstMatch_some _ _ _ _ hi
    rw [Nat.sub_zero] at hl
    refine ⟨lump, hl, hname, by simp [W_GetLumpName, hinfo, hl], ?_⟩
    have hlt : i < g.wad_lumps.length := by
      by_contra hge
      rw [List.getElem?_eq_none (by omega)] at hl
      simp at hl
    have hguard : ¬ ((i : Int) < 0 ∨ (i : Int) > g.wad_numlumps) := by omega
    simp [W_GetLumpNum, hguard, hl]

/-- C15: in the blob that `W_LoadWadFile` leaves for the example file, the
second record's name is the key of the sixteen-character query, yet
`W_GetLumpName` does not return its address (`strcmp` runs past the end of the
sixteen-byte arrays), while `W_GetLumpNum (1)` returns it. The query `CONCHARS`
gets the address `W_GetLumpNum (0)` returns, and a name that no record has gets
`NULL`. -/
theorem W_GetLumpName_sixteen_characters :
    W_LoadWadFile 66 (some (exampleFile (87, 65, 68, 50))) = Res.ok exampleLoaded
      ∧ exampleLoaded.wad_lumps.map (fun l => decide (l.name = W_CleanupName (List.replicate 16 65)))
          = [false, true]
      ∧ W_GetLumpName exampleLoaded (List.replicate 16 65) = Res.undef
      ∧ W_GetLumpNum exampleLoaded 1 = Res.ok 1084
      ∧ W_GetLumpName exampleLoaded exampleConchars = Res.ok (some 1076)
      ∧ W_GetLumpNum exampleLoaded 0 = Res.ok 1076
      ∧ W_GetLumpName exampleLoaded [120] = Res.ok none := by
  decide

/-! ## Claims on case-insensitive lookup -/

theorem W_CleanupName_loop_map_lowerChar (k : Nat) (inp : List Nat) :
    W_CleanupName_loop k (inp.map lowerChar) = W_CleanupName_loop k inp := by
  induction k generalizing inp with
  | zero => simp [W_CleanupName_loop]
  | succ k ih =>
    cases inp with
    | nil => simp [W_CleanupName_loop]
    | cons c cs =>
      by_cases hc : c = 0
      · subst hc
        simp [W_CleanupName_loop, lowerChar]
      · simp [W_CleanupName_loop, hc, lowerChar_ne_zero hc, lowerChar_lowerChar, ih]

theorem W_CleanupName_eq_of_case (name1 name2 : List Nat)
    (h : (name1.take 16).map lowerChar = (name2.take 16).map lowerChar) :
    W_CleanupName name1 = W_CleanupName name2 := by
  unfold W_CleanupName
  rw [← W_CleanupName_loop_take 16 name1, ← W_CleanupName_loop_take 16 name2,
    ← W_CleanupName_loop_map_lowerChar 16 (name1.take 16),
    ← W_CleanupName_loop_map_lowerChar 16 (name2.take 16), h]

theorem W_GetLumpinfoList_from_congr (name1 name2 : List Nat)
    (h : W_CleanupName name1 = W_CleanupName name2) (k : Nat) (wads : List wad_t) :
    W_GetLumpinfoList_from name1 k wads = W_GetLumpinfoList_from name2 k wads := by
  induction wads generalizing k with
  | nil => simp [W_GetLumpinfoList_from]
  | cons w next ih =>
    have hw : W_GetLumpinfo w.lumps w.numlumps name1 = W_GetLumpinfo w.lumps w.numlumps name2 := by
      unfold W_GetLumpinfo
      rw [h]
    unfold W_GetLumpinfoList_from
    rw [hw, ih (k + 1)]

/-- For two query names whose first sixteen characters differ only in the case
of ASCII letters and whose key holds a zero byte, a directory of `numlumps`
records with canonical names gives both lookups the same result, and that
result is a returned value (a record or `NULL`). -/
theorem W_GetLumpinfo_case_terminated (lumps : List lumpinfo_t) (numlumps : Int)
    (name1 name2 : List Nat)
    (h : (name1.take 16).map lowerChar = (name2.take 16).map lowerChar)
    (h0 : 0 ∈ W_CleanupName name1)
    (hk : ∀ l ∈ lumps, W_CleanupName l.name = l.name)
    (hn : numlumps.toNat = lumps.length) :
    W_GetLumpinfo lumps numlumps name1 = W_GetLumpinfo lumps numlumps name2
      ∧ ∃ r, W_GetLumpinfo lumps numlumps name1 = Res.ok r := by
  have hkey := W_CleanupName_eq_of_case name1 name2 h
  refine ⟨?_, _, W_GetLumpinfo_terminated lumps numlumps name1 h0 hk hn⟩
  unfold W_GetLumpinfo
  rw [hkey]

/-- C18: the query names sixteen times `A` and sixteen times `a` differ only in
the case of ASCII letters, and the one record of the directory has their common
key as its name; for both names `strcmp` runs past the end of the sixteen-byte
arrays, in `W_GetLumpinfo` and in `W_GetLumpinfoList` over the chain of `a;b`,
so that what either call returns is not determined by its arguments. -/
theorem W_GetLumpinfo_case_sixteen_characters :
    ((List.replicate 16 65).take 16).map lowerChar
        = ((List.replicate 16 97).take 16).map lowerChar
      ∧ W_CleanupName (List.replicate 16 65) = (exampleNamed (List.replicate 16 97) 12 4).name
      ∧ W_CleanupName (List.replicate 16 97) = (exampleNamed (List.replicate 16 97) 12 4).name
      ∧ W_GetLumpinfo [exampleNamed (List.replicate 16 97) 12 4] 1 (List.replicate 16 65)
          = Res.undef
      ∧ W_GetLumpinfo [exampleNamed (List.replicate 16 97) 12 4] 1 (List.replicate 16 97)
          = Res.undef
      ∧ W_GetLumpinfoList (W_LoadWadList exampleEnv16 ['a', ';', 'b']) (List.replicate 16 65)
          = Res.undef
      ∧ W_GetLumpinfoList (W_LoadWadList exampleEnv16 ['a', ';', 'b']) (List.replicate 16 97)
          = Res.undef :=
  ⟨by decide, by decide, by decide, by decide, by decide, by rfl, by rfl⟩

/-! ## Claims on the chain and names of sixteen characters -/

/-- C2: in the environment where `a.wad` and `b.wad` both define the lump named
sixteen times `A`, the list `a;b` loads both archives, `b` at the head of the
chain, and each directory holds a record whose name is the key of the query;
yet `W_GetLumpinfoList` does not return the record of `b`: `strcmp` runs past
the end of the sixteen-byte arrays in the first archive it searches. -/
theorem W_GetLumpinfoList_sixteen_characters :
    (W_LoadWadList exampleEnv16 ['a', ';', 'b']).map (fun w => (w.name, w.numlumps))
        = [(['b', '.', 'w', 'a', 'd'], 1), (['a', '.', 'w', 'a', 'd'], 1)]
      ∧ (W_LoadWadList exampleEnv16 ['a', ';', 'b']).map
            (fun w => w.lumps.map (fun l => (l.name, l.size)))
          = [[(W_CleanupName (List.replicate 16 65), 8)],
             [(W_CleanupName (List.replicate 16 65), 4)]]
      ∧ (W_LoadWadList exampleEnv16 ['a', ';', 'b']).map
            (fun w => firstMatch (W_CleanupName (List.replicate 16 65)) w.lumps 0)
          = [some 0, some 0]
      ∧ W_GetLumpinfoList (W_LoadWadList exampleEnv16 ['a', ';', 'b']) (List.replicate 16 65)
          = Res.undef :=
  ⟨by decide, by decide, by decide, by rfl⟩

/-- C6: in the same environment the list `bad;a` has the members `bad` and `a`;
`bad` fails header validation and adds no entry, the valid sibling `a` is
loaded and its directory holds the lump named sixteen times `a`; yet
`W_GetLumpinfoList` does not find that lump in the chain: `strcmp` runs past
the end of the sixteen-byte arrays. -/
theorem W_LoadWadList_sibling_sixteen_characters :
    wadListMembers ['b', 'a', 'd', ';', 'a'] = [['b', 'a', 'd'], ['a']]
      ∧ memberValid exampleEnv16 ['b', 'a', 'd'] = false
      ∧ memberValid exampleEnv16 ['a'] = true
      ∧ (W_LoadWadList exampleEnv16 ['b', 'a', 'd', ';', 'a']).map
            (fun w => (w.name, w.lumps.map (fun l => l.name)))
          = [(['a', '.', 'w', 'a', 'd'], [List.replicate 16 97])]
      ∧ W_GetLumpinfoList (W_LoadWadList exampleEnv16 ['b', 'a', 'd', ';', 'a'])
            (List.replicate 16 97)
          = Res.undef :=
  ⟨by decide, by decide, by decide, by decide, by rfl⟩

/-! ## What holds of the claims that the code misses -/

theorem W_CleanupName_loop_zero_mem_iff (k : Nat) (inp : List Nat) :
    0 ∈ W_CleanupName_loop k inp ↔ firstZero inp < k := by
  induction k generalizing inp with
  | zero => simp [W_CleanupName_loop]
  | succ k ih =>
    cases inp with
    | nil => simp [W_CleanupName_loop, firstZero, List.replicate_succ]
    | cons c cs =>
      by_cases hc : c = 0
      · simp [W_CleanupName_loop, firstZero, hc, List.replicate_succ]
      · have hl : ¬ (0 = lowerChar c) := fun h => lowerChar_ne_zero hc h.symm
        simp only [W_CleanupName_loop, firstZero, hc, if_false, List.mem_cons, hl, false_or]
        rw [ih cs]
        omega

/-- The key of `W_CleanupName` holds a zero byte exactly when the input has
fewer than sixteen bytes before its first zero byte (or its end). -/
theorem W_CleanupName_zero_mem_iff (inp : List Nat) :
    0 ∈ W_CleanupName inp ↔ firstZero inp < 16 :=
  W_CleanupName_loop_zero_mem_iff 16 inp

/-- A record with `0 ≤ filepos`, `0 ≤ size`, all three fields in the range of
an `int` and `filepos + disksize` in that range as well leaves the sanitization
pass with a size that is not larger than the decoded one. -/
theorem W_AddWadFile_parse_shrinks (length : Int) (info : lumpinfo_t)
    (hpos : 0 ≤ info.filepos) (hsize : 0 ≤ info.size)
    (hposr : info.filepos < 2147483648) (hsizer : info.size < 2147483648)
    (hdiskl : -2147483648 ≤ info.disksize)
    (hdisku : info.filepos + info.disksize < 2147483648) :
    (W_AddWadFile_parse length info).size ≤ info.size := by
  unfold W_AddWadFile_parse
  simp only [LittleLong, int_add, int_sub, wrap32, q_max]
  split_ifs <;> simp only [] <;> omega

end Wad
